import Mathlib

/-!
Verification of the statistical kernels of the `genetics_spark_coloc`
repository: COLOC and eCAVIAR colocalisation
(`src/otg/method/colocalisation.py`), RAISS summary-statistics imputation
(`src/gentropy/method/sumstat_imputation.py`), GWAS effect harmonisation and
p-value conversion (`src/etl/gwas_ingest/effect_harmonization.py`), and
GWAS Catalog ancestry parsing (`src/otg/datasource/gwas_catalog/study_index.py`).

Spark column expressions and numpy array code are shallowly embedded as Lean
functions over lists, exact rationals and exact reals; SQL nulls become
`Option`.  External library routines with no repository source
(`scipy.stats.norm.ppf`, `scipy.linalg.pinv` success/failure) are abstracted
into explicit parameters (an oracle function), so every theorem quantifies
over their behaviour.
-/

namespace GeneticsColoc

/-! ### eCAVIAR (`src/src/otg/method/colocalisation.py`, class `ECaviar`)

One row of a `StudyLocusOverlap` group: the left and right
`posteriorProbability` of one shared tag variant, both nullable doubles,
embedded as `Option ℚ`.  `ECaviar.colocalise` groups rows by
`(left_studyLocusId, right_studyLocusId)`; the embedding works on the row
list of one such group. -/

structure EcaviarRow where
  left_pp : Option ℚ
  right_pp : Option ℚ
  deriving DecidableEq

/-- `ECaviar._get_clpp`: the Spark column product `left_pp * right_pp`.
Following SQL semantics the product is null when either factor is null. -/
def getClpp (l r : Option ℚ) : Option ℚ :=
  match l, r with
  | some a, some b => some (a * b)
  | _, _ => none

/-- Spark `sum` aggregate over a nullable column: null values are skipped and
the result is null exactly when no non-null value is present. -/
def sqlSum (xs : List (Option ℚ)) : Option ℚ :=
  if (xs.filterMap id).isEmpty then none else some (xs.filterMap id).sum

/-- The aggregated output row of `ECaviar.colocalise` for one pair of study
loci: `count(*)`, `sum(clpp)` and the literal method column. -/
structure EcaviarResult where
  coloc_n_vars : ℕ
  clpp : Option ℚ
  colocalisationMethod : String
  deriving DecidableEq

/-- `ECaviar.colocalise` restricted to one
`(left_studyLocusId, right_studyLocusId)` group. -/
def ecaviarColocalise (rows : List EcaviarRow) : EcaviarResult :=
  { coloc_n_vars := rows.length,
    clpp := sqlSum (rows.map fun r => getClpp r.left_pp r.right_pp),
    colocalisationMethod := "eCAVIAR" }

/-! ### COLOC (`src/src/otg/method/colocalisation.py`, class `Coloc`)

One row of a `StudyLocusOverlap` group: the left and right `logABF` of one
shared tag variant, both nullable doubles.  `Coloc.colocalise` first fills
nulls with 0, groups by `(chromosome, left_studyLocusId,
right_studyLocusId)`, collects the per-variant columns into vectors and then
computes the five hypotheses' log-evidence and their softmax. -/

structure OverlapRow where
  left_logABF : Option ℝ
  right_logABF : Option ℝ

/-- `np.max` over a list (junk value 0 on the empty list, on which the
source would raise). -/
def listMax : List ℝ → ℝ
  | [] => 0
  | x :: xs => xs.foldl max x

/-- `Coloc._get_logsum`: `themax + log (sum (exp (log_abf - themax)))`. -/
noncomputable def getLogsum (v : List ℝ) : ℝ :=
  listMax v + Real.log ((v.map fun x => Real.exp (x - listMax v)).sum)

/-- `Coloc._get_posteriors`: `exp (all_abfs - getLogsum all_abfs)`
componentwise. -/
noncomputable def getPosteriors (v : List ℝ) : List ℝ :=
  v.map fun x => Real.exp (x - getLogsum v)

/-- The `logsum1` column: `_get_logsum` of the collected `left_logABF`
vector, nulls filled with 0. -/
noncomputable def colocLogsum1 (rows : List OverlapRow) : ℝ :=
  getLogsum (rows.map fun r => r.left_logABF.getD 0)

/-- The `logsum2` column: `_get_logsum` of the collected `right_logABF`
vector, nulls filled with 0. -/
noncomputable def colocLogsum2 (rows : List OverlapRow) : ℝ :=
  getLogsum (rows.map fun r => r.right_logABF.getD 0)

/-- The `logsum12` column: `_get_logsum` of the collected
`sum_log_abf = left_logABF + right_logABF` vector. -/
noncomputable def colocLogsum12 (rows : List OverlapRow) : ℝ :=
  getLogsum (rows.map fun r => r.left_logABF.getD 0 + r.right_logABF.getD 0)

/-- The `lH3abf` column: `log priorc1 + log priorc2 + logdiff`, where
`logdiff` is the numerically stable
`max + log (exp (sumlogsum - max) - exp (logsum12 - max))`. -/
noncomputable def colocLH3 (rows : List OverlapRow) (priorc1 priorc2 : ℝ) : ℝ :=
  Real.log priorc1 + Real.log priorc2 +
    (max (colocLogsum1 rows + colocLogsum2 rows) (colocLogsum12 rows) +
      Real.log
        (Real.exp (colocLogsum1 rows + colocLogsum2 rows -
            max (colocLogsum1 rows + colocLogsum2 rows) (colocLogsum12 rows)) -
          Real.exp (colocLogsum12 rows -
            max (colocLogsum1 rows + colocLogsum2 rows) (colocLogsum12 rows))))

/-- The `allABF` vector `[lH0abf, lH1abf, lH2abf, lH3abf, lH4abf]`. -/
noncomputable def colocAllABF (rows : List OverlapRow)
    (priorc1 priorc2 priorc12 : ℝ) : List ℝ :=
  [0,
   Real.log priorc1 + colocLogsum1 rows,
   Real.log priorc2 + colocLogsum2 rows,
   colocLH3 rows priorc1 priorc2,
   Real.log priorc12 + colocLogsum12 rows]

/-- The output row of `Coloc.colocalise` for one surviving pair. -/
structure ColocResult where
  coloc_n_vars : ℕ
  h0 : ℝ
  h1 : ℝ
  h2 : ℝ
  h3 : ℝ
  h4 : ℝ
  coloc_log2_h4_h3 : ℝ
  colocalisationMethod : String

/-- The columns computed for a pair that survives the
`sumlogsum != logsum12` filter: the posteriors are
`_get_posteriors(allABF).getItem(i)`, and `coloc_log2_h4_h3 = log2 (h4/h3)`. -/
noncomputable def colocResult (rows : List OverlapRow)
    (priorc1 priorc2 priorc12 : ℝ) : ColocResult :=
  { coloc_n_vars := rows.length,
    h0 := (getPosteriors (colocAllABF rows priorc1 priorc2 priorc12)).getD 0 0,
    h1 := (getPosteriors (colocAllABF rows priorc1 priorc2 priorc12)).getD 1 0,
    h2 := (getPosteriors (colocAllABF rows priorc1 priorc2 priorc12)).getD 2 0,
    h3 := (getPosteriors (colocAllABF rows priorc1 priorc2 priorc12)).getD 3 0,
    h4 := (getPosteriors (colocAllABF rows priorc1 priorc2 priorc12)).getD 4 0,
    coloc_log2_h4_h3 :=
      Real.logb 2
        ((getPosteriors (colocAllABF rows priorc1 priorc2 priorc12)).getD 4 0 /
          (getPosteriors (colocAllABF rows priorc1 priorc2 priorc12)).getD 3 0),
    colocalisationMethod := "COLOC" }

/-- `Coloc.colocalise` on one group of overlap rows: the
`filter(sumlogsum != logsum12)` step drops the whole group (no output row)
when `logsum1 + logsum2 == logsum12`; otherwise the posterior row is
emitted. -/
noncomputable def colocalisePair (rows : List OverlapRow)
    (priorc1 priorc2 priorc12 : ℝ) : Option ColocResult :=
  if colocLogsum1 rows + colocLogsum2 rows = colocLogsum12 rows then none
  else some (colocResult rows priorc1 priorc2 priorc12)

/-! ### RAISS imputation (`src/src/gentropy/method/sumstat_imputation.py`)

Matrices are embedded as `Matrix (Fin u) (Fin k) ℝ`; `sig_i_t` is the
unobserved-observed LD block, `sig_t` the observed-observed block.  The
external `scipy.linalg.pinv` is not repository code; `raissModel` therefore
takes the computed inverse `sig_t_inv` as an argument, which corresponds to
the branch of `raiss_model` where `_invert_sig_t` returned successfully.
The `condition_number` and `correct_inversion` outputs (constant arrays of
the external `np.linalg.cond` and `np.allclose` values, used by no claim)
are not modelled. -/

/-- `_compute_mu`: `sig_i_t . (sig_t_inv . zt)`. -/
def computeMu {u k : ℕ} (sig_i_t : Matrix (Fin u) (Fin k) ℝ)
    (sig_t_inv : Matrix (Fin k) (Fin k) ℝ) (zt : Fin k → ℝ) : Fin u → ℝ :=
  fun i => ∑ j, sig_i_t i j * (∑ l, sig_t_inv j l * zt l)

/-- `_compute_var`, first output: `(1 + lamb) - einsum("ij,jk,ki->i", ...)`. -/
def computeVar {u k : ℕ} (sig_i_t : Matrix (Fin u) (Fin k) ℝ)
    (sig_t_inv : Matrix (Fin k) (Fin k) ℝ) (lamb : ℝ) : Fin u → ℝ :=
  fun i => (1 + lamb) - ∑ j, ∑ l, sig_i_t i j * sig_t_inv j l * sig_i_t i l

/-- `_compute_var`, second output: `(sig_i_t ** 2).sum(1)`. -/
def ldScore {u k : ℕ} (sig_i_t : Matrix (Fin u) (Fin k) ℝ) : Fin u → ℝ :=
  fun i => ∑ j, (sig_i_t i j) ^ 2

/-- `_var_in_boundaries`: entries below 0 become 0, entries strictly above
`0.99999 + lamb` become 1 (note: 1, not `1 + lamb`).  The numpy code updates
the array in place, so the caller's `var` array is this clamped array. -/
noncomputable def varInBoundaries {u : ℕ} (var : Fin u → ℝ) (lamb : ℝ) : Fin u → ℝ :=
  fun i => if var i < 0 then 0 else if 0.99999 + lamb < var i then 1 else var i

/-- The dictionary returned by `raiss_model` on the successful-inversion
branch.  Because `_var_in_boundaries` mutates `var` in place, the returned
`var` (and the `var` inside `imputation_R2 = 1 - var`) is the clamped
`var_norm`, not the raw variance. -/
structure RaissOutput (u : ℕ) where
  var : Fin u → ℝ
  mu : Fin u → ℝ
  ld_score : Fin u → ℝ
  imputation_R2 : Fin u → ℝ

/-- `raiss_model` (successful-inversion branch): computes `mu`, the clamped
variance, `R2 = (1 + lamb) - var_norm` and the rescaled `mu / sqrt R2`. -/
noncomputable def raissModel {u k : ℕ} (sig_i_t : Matrix (Fin u) (Fin k) ℝ)
    (sig_t_inv : Matrix (Fin k) (Fin k) ℝ) (zt : Fin k → ℝ) (lamb : ℝ) :
    RaissOutput u :=
  { var := varInBoundaries (computeVar sig_i_t sig_t_inv lamb) lamb,
    mu := fun i =>
      computeMu sig_i_t sig_t_inv zt i /
        Real.sqrt ((1 + lamb) - varInBoundaries (computeVar sig_i_t sig_t_inv lamb) lamb i),
    ld_score := ldScore sig_i_t,
    imputation_R2 := fun i =>
      1 - varInBoundaries (computeVar sig_i_t sig_t_inv lamb) lamb i }

/-- `np.fill_diagonal(M, v)`: overwrite the diagonal in place. -/
def fillDiagonal {k : ℕ} (M : Matrix (Fin k) (Fin k) ℝ) (v : ℝ) :
    Matrix (Fin k) (Fin k) ℝ :=
  fun i j => if i = j then v else M i j

/-- The state of the caller's `sig_t` array after `raiss_model` returns, in
the case where the first `scipy.linalg.pinv` attempt succeeds:
`_invert_sig_t` executes `np.fill_diagonal(sig_t, 1 + lamb)` on the very
array the caller passed (numpy arrays are passed by reference) before
calling `pinv`, and nothing restores the original diagonal. -/
def raissSigTAfter {k : ℕ} (sig_t : Matrix (Fin k) (Fin k) ℝ) (lamb : ℝ) :
    Matrix (Fin k) (Fin k) ℝ :=
  fillDiagonal sig_t (1 + lamb)

/-- A concrete observed-observed LD matrix (one variant, unit diagonal) used
to exhibit the in-place mutation of `sig_t`. -/
def sigTexample : Matrix (Fin 1) (Fin 1) ℝ := fun _ _ => 1

/-- The retry recursion of `_invert_sig_t`, with the external
`scipy.linalg.pinv` abstracted into an oracle `fails n` telling whether the
n-th attempt raises `np.linalg.LinAlgError`.  Each failed attempt recurses
with `lamb * 1.1` and `rtol * 1.1`; a successful attempt returns its
`(lamb, rtol)` pair (standing for the inverse computed with them).  The
source recursion is unbounded; `fuel` indexes the finite approximations of
the embedding: a run of the source terminates with the result of attempt n
iff every approximation with `fuel > n` returns that result, and diverges
iff every approximation returns `none`. -/
def invertSigTAux (fails : ℕ → Bool) : ℕ → ℕ → ℚ → ℚ → Option (ℚ × ℚ)
  | _, 0, _, _ => none
  | attempt, fuel + 1, lamb, rtol =>
    if fails attempt then
      invertSigTAux fails (attempt + 1) fuel (lamb * 1.1) (rtol * 1.1)
    else some (lamb, rtol)

/-! ### Effect harmonisation (`src/src/etl/gwas_ingest/effect_harmonization.py`)

Allele strings are embedded as `List Char`. -/

/-- The per-character action of `translate(allele, "ACTG", "TGAC")`. -/
def translateChar (c : Char) : Char :=
  if c = 'A' then 'T'
  else if c = 'C' then 'G'
  else if c = 'T' then 'A'
  else if c = 'G' then 'C'
  else c

/-- `rlike("[ACTG]+")`: Spark `rlike` is an unanchored search, so it holds
iff the string contains at least one of the characters A, C, T, G. -/
def hasDnaChar (s : List Char) : Bool :=
  s.any fun c => c = 'A' || c = 'C' || c = 'T' || c = 'G'

/-- `_get_reverse_complement`: when the string matches `[ACTG]+` (Spark
unanchored search), reverse the translated string; otherwise return the
string unchanged. -/
def reverseComplement (s : List Char) : List Char :=
  if hasDnaChar s then (s.map translateChar).reverse else s

/-- The `needsHarmonisation` column of `harmonize_effect`: `false` on
palindromic sites (`referenceAllele == reverse_complement(alternateAllele)`),
else `true` iff the risk allele equals the reference allele or its reverse
complement, else `false`. -/
def needsHarmonisation (referenceAllele alternateAllele riskAllele : List Char) :
    Bool :=
  if referenceAllele = reverseComplement alternateAllele then false
  else if riskAllele = referenceAllele ∨
      riskAllele = reverseComplement referenceAllele then true
  else false

/-! ### p-value to z-score (`_pval_to_zscore` in the same file)

The Spark cast to `FloatType` (a 32-bit float) underflows to exactly 0 for
every positive rational below the least positive 32-bit subnormal; that
underflow is the only aspect of the cast the claims depend on, so the
embedding maps those values to 0 and keeps all other values exact.
`scipy.stats.norm.ppf` is external library code and is a parameter `ppf` of
the embedding; the source takes `abs (ppf (p / 2))`. -/

/-- `sys.float_info.min`, the least positive normal double, `2 ^ (-1022)`. -/
def floatInfoMin : ℚ := 1 / 2 ^ 1022

/-- The `cast(FloatType())` step, modelling its underflow to zero: positive
doubles below half the least positive 32-bit subnormal `2 ^ (-149)` round to
exactly 0; representable magnitudes are kept exact. -/
def castF32 (q : ℚ) : ℚ := if |q| < 1 / 2 ^ 150 then 0 else q

/-- `_pval_to_zscore`: cast to float, replace exact 0 by `sys.float_info.min`,
then `abs (norm.ppf (pv / 2))`; a null (or still-zero, impossible here)
p-value maps to null. -/
noncomputable def pvalToZscore (ppf : ℚ → ℝ) : Option ℚ → Option ℝ
  | none => none
  | some pv =>
    if (if castF32 pv = 0 then floatInfoMin else castF32 pv) = 0 then none
    else some |ppf ((if castF32 pv = 0 then floatInfoMin else castF32 pv) / 2)|

/-! ### GWAS Catalog discovery-sample parsing
(`src/src/otg/datasource/gwas_catalog/study_index.py`,
`GWASCatalogStudyIndex._parse_discovery_samples`)

One raw record is an `(ancestry, sampleSize)` struct; the ancestry string may
hold several comma-separated ancestries.  All strings are `List Char`. -/

structure AncestrySample where
  ancestry : List Char
  sampleSize : ℤ
  deriving DecidableEq

/-- The regex lookahead `[^()]*\)` anchored at the current position: true iff
a `)` occurs in the list before any `(`. -/
def lookaheadCloseParen : List Char → Bool
  | [] => false
  | c :: rest =>
    if c = ')' then true
    else if c = '(' then false
    else lookaheadCloseParen rest

/-- Scanner for `split(ancestry, ",\s(?![^()]*\))")`: split at every comma
followed by a whitespace character, unless the negative lookahead sees a
closing parenthesis (before any opening one) after the separator. -/
def splitAncestriesGo : List Char → List Char → List (List Char)
  | acc, [] => [acc.reverse]
  | acc, [c] => [(c :: acc).reverse]
  | acc, c :: c2 :: rest =>
    if c = ',' && c2.isWhitespace && !lookaheadCloseParen rest then
      acc.reverse :: splitAncestriesGo [] rest
    else
      splitAncestriesGo (c :: acc) (c2 :: rest)

/-- `f.split(sample.ancestry, r",\s(?![^()]*\))")`. -/
def splitAncestries (s : List Char) : List (List Char) :=
  splitAncestriesGo [] s

/-- Spark `array_union` keeps the first occurrence of each element: the
deduplication underlying both `array_union` and `array_distinct`. -/
def dedupFirst {α : Type} [DecidableEq α] (l : List α) : List α :=
  l.foldl (fun acc x => if x ∈ acc then acc else acc ++ [x]) []

/-- The cast of a double to `IntegerType`: truncation toward zero, embedded
on exact rationals. -/
def ratTrunc (q : ℚ) : ℤ :=
  if 0 ≤ q then Int.floor q else -(Int.floor (-q))

/-- The `unique_ancestries` accumulator: the distinct split ancestries, each
initialised with `sampleSize = 0`. -/
def uniqueAncestries (samples : List AncestrySample) : List (List Char × ℤ) :=
  (dedupFirst
      ((samples.map fun s => splitAncestries s.ancestry).foldl
        (fun acc g => dedupFirst (acc ++ g)) [])).map
    fun a => (a, (0 : ℤ))

/-- `resolved_sample_count`: per input record, the record's sample count
divided by the number of split ancestries, cast to integer. -/
def resolvedSampleCount (samples : List AncestrySample) : List ℤ :=
  samples.map fun s =>
    ratTrunc ((s.sampleSize : ℚ) / ((splitAncestries s.ancestry).length : ℚ))

/-- `parsed_sample_size`: each split ancestry paired with its record's
resolved count (`_merge_ancestries_and_counts`), flattened with
`array_union`. -/
def parsedSampleSize (samples : List AncestrySample) : List (List Char × ℤ) :=
  ((samples.map fun s => splitAncestries s.ancestry).zip
      (resolvedSampleCount samples)).foldl
    (fun acc g => dedupFirst (acc ++ g.1.map fun a => (a, g.2))) []

/-- One step of `_normalize_ancestries`: add the entry's count to the
matching ancestry of the accumulator. -/
def normalizeStep (merged : List (List Char × ℤ)) (entry : List Char × ℤ) :
    List (List Char × ℤ) :=
  merged.map fun a => if a.1 = entry.1 then (a.1, a.2 + entry.2) else a

/-- `_parse_discovery_samples` on one study's collected records. -/
def parseDiscoverySamples (samples : List AncestrySample) :
    List (List Char × ℤ) :=
  (parsedSampleSize samples).foldl normalizeStep (uniqueAncestries samples)

/-! ## Theorems -/

lemma getClpp_eq_none_iff (l r : Option ℚ) :
    getClpp l r = none ↔ l = none ∨ r = none := by
  cases l <;> cases r <;> simp [getClpp]

lemma clppProducts_all_some (rows : List EcaviarRow)
    (hnn : ∀ r ∈ rows, r.left_pp ≠ none ∧ r.right_pp ≠ none) :
    (rows.map fun r => getClpp r.left_pp r.right_pp).filterMap id
      = rows.map fun r => r.left_pp.getD 0 * r.right_pp.getD 0 := by
  induction rows with
  | nil => simp
  | cons r t ih =>
    obtain ⟨hl, hr⟩ := hnn r (by simp)
    obtain ⟨a, ha⟩ := Option.ne_none_iff_exists'.mp hl
    obtain ⟨b, hb⟩ := Option.ne_none_iff_exists'.mp hr
    have hgc : getClpp r.left_pp r.right_pp = some (a * b) := by rw [ha, hb]; rfl
    have htail := ih fun s hs => hnn s (List.mem_cons_of_mem r hs)
    simp only [List.map_cons, List.filterMap_cons, hgc, id, htail, ha, hb,
      Option.getD_some]
    simp [getClpp]

lemma sqlSum_eq_none_iff (xs : List (Option ℚ)) :
    sqlSum xs = none ↔ xs.filterMap id = [] := by
  unfold sqlSum
  split_ifs with h
  · simp only [List.isEmpty_iff] at h
    simp [h]
  · simp only [List.isEmpty_iff] at h
    simp [h]

/-- Claim C5: for a pair of overlapping study loci all of whose shared-variant
rows carry a posterior probability on both sides, `ECaviar.colocalise`
returns `clpp` equal to the sum over shared tag variants of
`left_pp * right_pp`, with method `"eCAVIAR"`. -/
theorem ecaviar_clpp_is_sum_of_products (rows : List EcaviarRow)
    (hne : rows ≠ [])
    (hnn : ∀ r ∈ rows, r.left_pp ≠ none ∧ r.right_pp ≠ none) :
    (ecaviarColocalise rows).clpp
        = some ((rows.map fun r => r.left_pp.getD 0 * r.right_pp.getD 0).sum) ∧
    (ecaviarColocalise rows).colocalisationMethod = "eCAVIAR" := by
  refine ⟨?_, rfl⟩
  show sqlSum (rows.map fun r => getClpp r.left_pp r.right_pp) = _
  unfold sqlSum
  rw [clppProducts_all_some rows hnn, if_neg]
  simp [hne]

/-- Witness for C5 at the spec's example
`left_pp = right_pp = [0.5, 0.4, 0.1]`: `CLPP = 0.42 = 21/50`. -/
theorem ecaviar_clpp_is_sum_of_products_witness :
    ([(⟨some (1/2), some (1/2)⟩ : EcaviarRow), ⟨some (2/5), some (2/5)⟩,
        ⟨some (1/10), some (1/10)⟩] ≠ ([] : List EcaviarRow)) ∧
    (ecaviarColocalise [⟨some (1/2), some (1/2)⟩, ⟨some (2/5), some (2/5)⟩,
        ⟨some (1/10), some (1/10)⟩]).clpp = some (21/50) ∧
    (ecaviarColocalise [⟨some (1/2), some (1/2)⟩, ⟨some (2/5), some (2/5)⟩,
        ⟨some (1/10), some (1/10)⟩]).colocalisationMethod = "eCAVIAR" := by
  have h := ecaviar_clpp_is_sum_of_products
    [⟨some (1/2), some (1/2)⟩, ⟨some (2/5), some (2/5)⟩, ⟨some (1/10), some (1/10)⟩]
    (by decide) (by decide)
  refine ⟨by decide, ?_, h.2⟩
  rw [h.1]
  norm_num

/-- Claim C10: in `ECaviar.colocalise`, a row with a null posterior on either
side contributes nothing to the `clpp` sum but is still counted by
`coloc_n_vars`; the aggregated `clpp` is null iff every row of the pair has a
null side. -/
theorem ecaviar_null_row_skipped (rows : List EcaviarRow) (r : EcaviarRow)
    (h : r.left_pp = none ∨ r.right_pp = none) :
    (ecaviarColocalise (r :: rows)).clpp = (ecaviarColocalise rows).clpp ∧
    (ecaviarColocalise (r :: rows)).coloc_n_vars = rows.length + 1 ∧
    ((ecaviarColocalise (r :: rows)).clpp = none ↔
      ∀ s ∈ r :: rows, s.left_pp = none ∨ s.right_pp = none) := by
  have hr : getClpp r.left_pp r.right_pp = none := (getClpp_eq_none_iff _ _).mpr h
  refine ⟨?_, rfl, ?_⟩
  · show sqlSum _ = sqlSum _
    simp [sqlSum, hr]
  · show sqlSum _ = none ↔ _
    rw [sqlSum_eq_none_iff]
    simp only [List.filterMap_eq_nil_iff, List.mem_map, id]
    constructor
    · intro hall s hs
      exact (getClpp_eq_none_iff s.left_pp s.right_pp).mp
        (hall _ ⟨s, hs, rfl⟩)
    · rintro hall x ⟨s, hs, rfl⟩
      exact (getClpp_eq_none_iff s.left_pp s.right_pp).mpr (hall s hs)

/-- Witness for C10: one null-left row next to one fully observed row. -/
theorem ecaviar_null_row_skipped_witness :
    ((⟨none, some 1⟩ : EcaviarRow).left_pp = none ∨
      (⟨none, some 1⟩ : EcaviarRow).right_pp = none) ∧
    (ecaviarColocalise [⟨none, some 1⟩, ⟨some (1/2), some (1/2)⟩]).clpp
      = (ecaviarColocalise [⟨some (1/2), some (1/2)⟩]).clpp ∧
    (ecaviarColocalise [⟨none, some 1⟩, ⟨some (1/2), some (1/2)⟩]).coloc_n_vars = 2 ∧
    ¬(ecaviarColocalise [⟨none, some 1⟩, ⟨some (1/2), some (1/2)⟩]).clpp = none := by
  have h := ecaviar_null_row_skipped [⟨some (1/2), some (1/2)⟩] ⟨none, some 1⟩
    (Or.inl rfl)
  refine ⟨Or.inl rfl, h.1, h.2.1, ?_⟩
  rw [h.2.2]
  decide

/-- Claim C6: `needsHarmonisation` is false on palindromic sites
(`referenceAllele = reverse complement of alternateAllele`); otherwise it is
true exactly when the risk allele equals the reference allele or its reverse
complement; otherwise false.  In particular `ref=T, alt=A, risk=T` is a
palindromic site and yields `false`. -/
theorem needs_harmonisation_rule :
    (∀ referenceAllele alternateAllele riskAllele : List Char,
        needsHarmonisation referenceAllele alternateAllele riskAllele = true ↔
          (referenceAllele ≠ reverseComplement alternateAllele ∧
            (riskAllele = referenceAllele ∨
              riskAllele = reverseComplement referenceAllele))) ∧
    needsHarmonisation ['T'] ['A'] ['T'] = false := by
  refine ⟨?_, by decide⟩
  intro ref alt risk
  unfold needsHarmonisation
  split_ifs with h1 h2 <;> simp_all

lemma pvalToZscore_underflow (ppf : ℚ → ℝ) (p : ℚ) (h0 : 0 ≤ p)
    (hp : p < 1 / 2 ^ 150) :
    pvalToZscore ppf (some p) = some |ppf (floatInfoMin / 2)| := by
  have hcast : castF32 p = 0 := by
    unfold castF32
    rw [if_pos]
    rwa [abs_of_nonneg h0]
  have hfm : ¬floatInfoMin = 0 := by norm_num [floatInfoMin]
  simp [pvalToZscore, hcast, hfm]

lemma pvalToZscore_representable (ppf : ℚ → ℝ) (p : ℚ)
    (hp : 1 / 2 ^ 150 ≤ p) :
    pvalToZscore ppf (some p) = some |ppf (p / 2)| := by
  have hid : castF32 p = p := by
    unfold castF32
    rw [if_neg]
    push_neg
    rw [abs_of_nonneg (le_trans (by norm_num) hp)]
    exact hp
  have hpne : ¬p = 0 := by
    intro hc
    rw [hc] at hp
    norm_num at hp
  simp [pvalToZscore, hid, hpne]

/-- Claim C8 counterexample: `p = 1e-100` lies strictly between the claim's
cap region `p ≤ 1e-300` and the float cast's real underflow threshold
`2 ^ (-150)`, yet the cast still underflows it to 0, so the code returns the
capped value — the quantile is applied to `sys.float_info.min / 2` and NOT
to `p / 2`.  Exhibited with the injective quantile `ppf q = q`: the output
at `p = 1e-100` coincides with the output at `p = 0` and differs from
`|ppf (p / 2)|`, refuting the claim's clause that every p-value above
1e-300 is sent to `|ppf (p / 2)|`. -/
theorem pval_to_zscore_not_inverted_counterexample :
    pvalToZscore (fun q => (q : ℝ)) (some (1 / 10 ^ 100))
      = pvalToZscore (fun q => (q : ℝ)) (some 0) ∧
    pvalToZscore (fun q => (q : ℝ)) (some (1 / 10 ^ 100))
      ≠ some |((1 / 10 ^ 100 / 2 : ℚ) : ℝ)| := by
  have h1 := pvalToZscore_underflow (fun q => (q : ℝ)) (1 / 10 ^ 100)
    (by norm_num) (by norm_num)
  have h0 := pvalToZscore_underflow (fun q => (q : ℝ)) 0 le_rfl (by norm_num)
  refine ⟨h1.trans h0.symm, ?_⟩
  rw [h1]
  intro hc
  have heq : |((floatInfoMin / 2 : ℚ) : ℝ)| = |((1 / 10 ^ 100 / 2 : ℚ) : ℝ)| :=
    Option.some.inj hc
  rw [abs_of_pos (by rw [Rat.cast_pos]; norm_num [floatInfoMin]),
    abs_of_pos (by rw [Rat.cast_pos]; norm_num)] at heq
  have hq : (floatInfoMin / 2 : ℚ) = 1 / 10 ^ 100 / 2 := by exact_mod_cast heq
  norm_num [floatInfoMin] at hq

/-- Claim C8 (amended): a p-value of exactly 0 is replaced by
`sys.float_info.min` before inversion, and the `FloatType` (32-bit) cast
underflows to 0 for every p-value below `2 ^ (-150)` — not merely below
1e-300 — so every such p-value yields one and the same capped z-score
`|ppf (sys.float_info.min / 2)|` (≈ 37.5 for `scipy.stats.norm.ppf`, which
is abstracted as the parameter `ppf`); only p-values at or above the
underflow threshold are sent to `|ppf (p / 2)|`. -/
theorem pval_to_zscore_cap_below_threshold (ppf : ℚ → ℝ) :
    (∀ p : ℚ, 0 ≤ p → p < 1 / 2 ^ 150 →
        pvalToZscore ppf (some p) = some |ppf (floatInfoMin / 2)|) ∧
    (∀ p : ℚ, 1 / 2 ^ 150 ≤ p →
        pvalToZscore ppf (some p) = some |ppf (p / 2)|) :=
  ⟨fun p h0 hp => pvalToZscore_underflow ppf p h0 hp,
   fun p hp => pvalToZscore_representable ppf p hp⟩

/-- Witness for C8 (amended) at `p = 1e-100` (inside the enlarged cap
region) and `p = 1/2` (inversion branch), with the external quantile
abstracted as the zero function. -/
theorem pval_to_zscore_cap_below_threshold_witness :
    ((0 : ℚ) ≤ 1 / 10 ^ 100 ∧ (1 : ℚ) / 10 ^ 100 < 1 / 2 ^ 150 ∧
      pvalToZscore (fun _ => 0) (some (1 / 10 ^ 100)) = some |(0 : ℝ)|) ∧
    ((1 : ℚ) / 2 ^ 150 ≤ 1 / 2 ∧
      pvalToZscore (fun _ => 0) (some (1 / 2)) = some |(0 : ℝ)|) := by
  have h := pval_to_zscore_cap_below_threshold (fun _ => 0)
  exact ⟨⟨by norm_num, by norm_num, h.1 (1 / 10 ^ 100) (by norm_num) (by norm_num)⟩,
    ⟨by norm_num, h.2 (1 / 2) (by norm_num)⟩⟩

lemma invertSigTAux_first_success (fails : ℕ → Bool) :
    ∀ (n fuel k : ℕ) (lamb rtol : ℚ),
      (∀ j, j < n → fails (k + j) = true) → fails (k + n) = false → n < fuel →
      invertSigTAux fails k fuel lamb rtol
        = some (lamb * (11 / 10) ^ n, rtol * (11 / 10) ^ n) := by
  intro n
  induction n with
  | zero =>
    intro fuel k lamb rtol _ hsucc hlt
    obtain ⟨f, rfl⟩ : ∃ f, fuel = f + 1 := ⟨fuel - 1, by omega⟩
    rw [invertSigTAux]
    simp only [Nat.add_zero] at hsucc
    rw [hsucc]
    simp
  | succ m ih =>
    intro fuel k lamb rtol hfail hsucc hlt
    obtain ⟨f, rfl⟩ : ∃ f, fuel = f + 1 := ⟨fuel - 1, by omega⟩
    have hk : fails k = true := by simpa using hfail 0 (Nat.succ_pos m)
    rw [invertSigTAux, hk]
    simp only [if_true]
    have hstep := ih f (k + 1) (lamb * 1.1) (rtol * 1.1)
      (fun j hj => by
        have h1 := hfail (j + 1) (by omega)
        have h2 : k + (j + 1) = k + 1 + j := by omega
        rwa [h2] at h1)
      (by
        have h2 : k + (m + 1) = k + 1 + m := by omega
        rwa [h2] at hsucc)
      (by omega)
    rw [hstep]
    have hl : lamb * 1.1 * (11 / 10) ^ m = lamb * (11 / 10) ^ (m + 1) := by
      rw [pow_succ]
      norm_num
      ring
    have hrr : rtol * 1.1 * (11 / 10) ^ m = rtol * (11 / 10) ^ (m + 1) := by
      rw [pow_succ]
      norm_num
      ring
    rw [hl, hrr]

lemma invertSigTAux_all_fail (fails : ℕ → Bool) (hall : ∀ j, fails j = true) :
    ∀ (fuel k : ℕ) (lamb rtol : ℚ), invertSigTAux fails k fuel lamb rtol = none := by
  intro fuel
  induction fuel with
  | zero => intro k lamb rtol; rfl
  | succ f ih =>
    intro k lamb rtol
    rw [invertSigTAux, hall k]
    simp only [if_true]
    exact ih (k + 1) (lamb * 1.1) (rtol * 1.1)

/-- Claim C4 (amended): on `LinAlgError` the `_invert_sig_t` retry recursion
does multiply `lamb` and `rtol` by 1.1, but it carries NO retry cap: if the
first n attempts fail and attempt n succeeds, the recursion returns the
attempt-n result for every n (in particular beyond 32), and if every attempt
fails it never returns (`none` at every recursion-depth bound), so
termination is not guaranteed and `raiss_model`'s `{mu: None}` branch is
unreachable. -/
theorem raiss_invert_retry_unbounded :
    (∀ (fails : ℕ → Bool) (lamb rtol : ℚ) (n fuel : ℕ),
        (∀ j, j < n → fails j = true) → fails n = false → n < fuel →
        invertSigTAux fails 0 fuel lamb rtol
          = some (lamb * (11 / 10) ^ n, rtol * (11 / 10) ^ n)) ∧
    (∀ fails : ℕ → Bool, (∀ j, fails j = true) →
        ∀ (fuel : ℕ) (lamb rtol : ℚ),
          invertSigTAux fails 0 fuel lamb rtol = none) := by
  constructor
  · intro fails lamb rtol n fuel hf hs hlt
    exact invertSigTAux_first_success fails n fuel 0 lamb rtol
      (fun j hj => by simpa using hf j hj) (by simpa using hs) hlt
  · intro fails hall fuel lamb rtol
    exact invertSigTAux_all_fail fails hall fuel 0 lamb rtol

/-- Witness for C4 (amended): three failures then success returns
`lamb * 1.1³ = 1331/100000` from `lamb = 1/100`. -/
theorem raiss_invert_retry_unbounded_witness :
    (∀ j, j < 3 → (fun n => decide (n < 3)) j = true) ∧
    (fun n => decide (n < 3)) 3 = false ∧
    invertSigTAux (fun n => decide (n < 3)) 0 10 (1 / 100) (1 / 100)
      = some ((1 / 100) * (11 / 10) ^ 3, (1 / 100) * (11 / 10) ^ 3) := by
  refine ⟨by decide, by decide, ?_⟩
  exact raiss_invert_retry_unbounded.1 (fun n => decide (n < 3)) (1 / 100) (1 / 100)
    3 10 (by decide) (by decide) (by norm_num)

/-- Claim C4 counterexample: with 40 consecutive `LinAlgError`s the recursion
does not stop after 32 retries — it is still running at depth 33 and returns
the attempt-40 result instead of failing. -/
theorem raiss_invert_retry_counterexample :
    invertSigTAux (fun n => decide (n < 40)) 0 100 (1 / 100) (1 / 100) ≠ none := by
  intro h
  have hs := invertSigTAux_first_success (fun n => decide (n < 40)) 40 100 0
    (1 / 100) (1 / 100) (fun j hj => by simp [hj]) (by simp) (by norm_num)
  simp only [Nat.zero_add] at hs
  rw [hs] at h
  exact Option.some_ne_none _ h

lemma list_sum_map_div (l : List ℝ) (f : ℝ → ℝ) (c : ℝ) :
    (l.map fun x => f x / c).sum = (l.map f).sum / c := by
  induction l with
  | nil => simp
  | cons a t ih => simp [ih, add_div]

lemma exp_shifted_sum_pos (v : List ℝ) (hv : v ≠ []) :
    0 < ((v.map fun x => Real.exp (x - listMax v)).sum) := by
  cases v with
  | nil => exact absurd rfl hv
  | cons a t =>
    have h2 : 0 ≤ ((t.map fun x => Real.exp (x - listMax (a :: t))).sum) := by
      apply List.sum_nonneg
      intro y hy
      obtain ⟨x, _, rfl⟩ := List.mem_map.mp hy
      exact (Real.exp_pos _).le
    have h1 : 0 < Real.exp (a - listMax (a :: t)) := Real.exp_pos _
    rw [List.map_cons, List.sum_cons]
    linarith

lemma getPosteriors_sum_one (v : List ℝ) (hv : v ≠ []) :
    (getPosteriors v).sum = 1 := by
  have hS := exp_shifted_sum_pos v hv
  have hexp : ∀ x : ℝ, Real.exp (x - getLogsum v)
      = Real.exp (x - listMax v) /
          ((v.map fun y => Real.exp (y - listMax v)).sum) := by
    intro x
    rw [getLogsum,
      show x - (listMax v + Real.log ((v.map fun y => Real.exp (y - listMax v)).sum))
          = (x - listMax v) - Real.log ((v.map fun y => Real.exp (y - listMax v)).sum)
        from by ring,
      Real.exp_sub, Real.exp_log hS]
  unfold getPosteriors
  calc (v.map fun x => Real.exp (x - getLogsum v)).sum
      = (v.map fun x => Real.exp (x - listMax v) /
          ((v.map fun y => Real.exp (y - listMax v)).sum)).sum := by
        simp only [hexp]
    _ = ((v.map fun x => Real.exp (x - listMax v)).sum) /
          ((v.map fun y => Real.exp (y - listMax v)).sum) :=
        list_sum_map_div v _ _
    _ = 1 := div_self (ne_of_gt hS)

lemma colocResult_posterior_sum (rows : List OverlapRow) (p1 p2 p12 : ℝ) :
    (colocResult rows p1 p2 p12).h0 + (colocResult rows p1 p2 p12).h1 +
      (colocResult rows p1 p2 p12).h2 + (colocResult rows p1 p2 p12).h3 +
      (colocResult rows p1 p2 p12).h4 = 1 := by
  have h := getPosteriors_sum_one (colocAllABF rows p1 p2 p12) (by simp [colocAllABF])
  simp only [colocResult]
  simp only [colocAllABF, getPosteriors, List.map_cons, List.map_nil,
    List.sum_cons, List.sum_nil, List.getD_cons_zero, List.getD_cons_succ] at h ⊢
  linarith

/-- Claim C1: every pair row that `Coloc.colocalise` emits satisfies
`|h0 + h1 + h2 + h3 + h4 - 1| < 1e-9`, for every choice of priors — in the
exact-arithmetic embedding the softmax of the five log-evidences sums to
exactly 1. -/
theorem coloc_posteriors_sum_to_one (rows : List OverlapRow)
    (priorc1 priorc2 priorc12 : ℝ) (res : ColocResult)
    (h : colocalisePair rows priorc1 priorc2 priorc12 = some res) :
    |res.h0 + res.h1 + res.h2 + res.h3 + res.h4 - 1| < 1e-9 := by
  unfold colocalisePair at h
  split_ifs at h
  obtain rfl := Option.some.inj h
  rw [colocResult_posterior_sum rows priorc1 priorc2 priorc12]
  norm_num

lemma getLogsum_pair_zero : getLogsum [0, 0] = Real.log 2 := by
  unfold getLogsum listMax
  norm_num

/-- Witness for C1: a two-variant pair with all log-ABFs 0 passes the
`sumlogsum != logsum12` filter (`2 log 2 ≠ log 2`) and its posteriors sum to
1 within 1e-9. -/
theorem coloc_posteriors_sum_to_one_witness :
    colocalisePair [⟨some 0, some 0⟩, ⟨some 0, some 0⟩] 1 1 1
      = some (colocResult [⟨some 0, some 0⟩, ⟨some 0, some 0⟩] 1 1 1) ∧
    |(colocResult [⟨some 0, some 0⟩, ⟨some 0, some 0⟩] 1 1 1).h0 +
        (colocResult [⟨some 0, some 0⟩, ⟨some 0, some 0⟩] 1 1 1).h1 +
        (colocResult [⟨some 0, some 0⟩, ⟨some 0, some 0⟩] 1 1 1).h2 +
        (colocResult [⟨some 0, some 0⟩, ⟨some 0, some 0⟩] 1 1 1).h3 +
        (colocResult [⟨some 0, some 0⟩, ⟨some 0, some 0⟩] 1 1 1).h4 - 1| < 1e-9 := by
  have h1 : colocLogsum1 [(⟨some 0, some 0⟩ : OverlapRow), ⟨some 0, some 0⟩]
      = Real.log 2 := by
    unfold colocLogsum1
    simp only [List.map_cons, List.map_nil, Option.getD_some]
    exact getLogsum_pair_zero
  have h2 : colocLogsum2 [(⟨some 0, some 0⟩ : OverlapRow), ⟨some 0, some 0⟩]
      = Real.log 2 := by
    unfold colocLogsum2
    simp only [List.map_cons, List.map_nil, Option.getD_some]
    exact getLogsum_pair_zero
  have h12 : colocLogsum12 [(⟨some 0, some 0⟩ : OverlapRow), ⟨some 0, some 0⟩]
      = Real.log 2 := by
    unfold colocLogsum12
    simp only [List.map_cons, List.map_nil, Option.getD_some, add_zero]
    exact getLogsum_pair_zero
  have hlog2 : 0 < Real.log 2 := Real.log_pos (by norm_num)
  have hneg : ¬(colocLogsum1 [(⟨some 0, some 0⟩ : OverlapRow), ⟨some 0, some 0⟩] +
      colocLogsum2 [(⟨some 0, some 0⟩ : OverlapRow), ⟨some 0, some 0⟩]
        = colocLogsum12 [(⟨some 0, some 0⟩ : OverlapRow), ⟨some 0, some 0⟩]) := by
    rw [h1, h2, h12]
    intro hc
    linarith
  have hemit : colocalisePair [⟨some 0, some 0⟩, ⟨some 0, some 0⟩] 1 1 1
      = some (colocResult [⟨some 0, some 0⟩, ⟨some 0, some 0⟩] 1 1 1) := by
    unfold colocalisePair
    exact if_neg hneg
  exact ⟨hemit, coloc_posteriors_sum_to_one _ 1 1 1 _ hemit⟩

lemma getLogsum_singleton (x : ℝ) : getLogsum [x] = x := by
  unfold getLogsum listMax
  simp

lemma colocalisePair_singleton (row : OverlapRow) (p1 p2 p12 : ℝ) :
    colocalisePair [row] p1 p2 p12 = none := by
  have hpos : colocLogsum1 [row] + colocLogsum2 [row] = colocLogsum12 [row] := by
    unfold colocLogsum1 colocLogsum2 colocLogsum12
    simp only [List.map_cons, List.map_nil, getLogsum_singleton]
  unfold colocalisePair
  exact if_pos hpos

/-- Claim C2 counterexample: for the single-shared-variant pair with left
`logABF = 10.3` and right `logABF = 10.5` and the default priors,
`Coloc.colocalise` emits NO result row — the pair has
`logsum1 + logsum2 = 10.3 + 10.5 = logsum12` and is removed by the
`filter(sumlogsum != logsum12)` step, so in particular no row with
`h4 ≈ 0.9993` exists. -/
theorem coloc_single_snp_counterexample :
    colocalisePair [⟨some 10.3, some 10.5⟩] 1e-4 1e-4 1e-5 = none :=
  colocalisePair_singleton ⟨some 10.3, some 10.5⟩ 1e-4 1e-4 1e-5

/-- Claim C2 (amended): every pair whose overlap consists of exactly one
shared tag variant is dropped by `Coloc.colocalise`: the logsum of a single
value is that value, so `logsum1 + logsum2 = logsum12` holds with exact
equality and the filter removes the pair before any posterior is computed
(the repository's newer test suite expects `h4 ≈ 0.9993` here, but that test
targets a rewritten module that is not this code). -/
theorem coloc_single_variant_emits_no_row (row : OverlapRow)
    (priorc1 priorc2 priorc12 : ℝ) :
    colocalisePair [row] priorc1 priorc2 priorc12 = none :=
  colocalisePair_singleton row priorc1 priorc2 priorc12

lemma computeVar_zero {u k : ℕ} (sig_t_inv : Matrix (Fin k) (Fin k) ℝ)
    (lamb : ℝ) (i : Fin u) :
    computeVar (0 : Matrix (Fin u) (Fin k) ℝ) sig_t_inv lamb i = 1 + lamb := by
  simp [computeVar]

lemma raissModel_zero_var {u k : ℕ} (sig_t_inv : Matrix (Fin k) (Fin k) ℝ)
    (zt : Fin k → ℝ) (lamb : ℝ) (hl : 0 < lamb) (i : Fin u) :
    (raissModel (0 : Matrix (Fin u) (Fin k) ℝ) sig_t_inv zt lamb).var i = 1 := by
  show varInBoundaries _ _ _ = 1
  unfold varInBoundaries
  rw [computeVar_zero, if_neg (by linarith), if_pos (by norm_num)]

lemma raissModel_zero_mu {u k : ℕ} (sig_t_inv : Matrix (Fin k) (Fin k) ℝ)
    (zt : Fin k → ℝ) (lamb : ℝ) (i : Fin u) :
    (raissModel (0 : Matrix (Fin u) (Fin k) ℝ) sig_t_inv zt lamb).mu i = 0 := by
  show computeMu _ _ _ _ / _ = 0
  rw [show computeMu (0 : Matrix (Fin u) (Fin k) ℝ) sig_t_inv zt i = 0 from by
    simp [computeMu]]
  exact zero_div _

/-- Claim C3 (amended): when the unobserved-observed LD block `sig_i_t` is
the zero matrix, `raiss_model` returns `mu = 0` for every unobserved
variant, but the returned `var` entry is 1, NOT `1 + lamb`: the raw variance
`(1 + lamb) - 0` exceeds the clamp threshold `0.99999 + lamb` of
`_var_in_boundaries` and is set to 1, and since the clamp mutates the array
in place the clamped array is what the returned dict carries. -/
theorem raiss_zero_ld_mu_zero_var_one (u k : ℕ)
    (sig_t_inv : Matrix (Fin k) (Fin k) ℝ) (zt : Fin k → ℝ) (lamb : ℝ)
    (hl : 0 < lamb) :
    (∀ i, (raissModel (0 : Matrix (Fin u) (Fin k) ℝ) sig_t_inv zt lamb).mu i = 0) ∧
    (∀ i, (raissModel (0 : Matrix (Fin u) (Fin k) ℝ) sig_t_inv zt lamb).var i = 1) :=
  ⟨fun i => raissModel_zero_mu sig_t_inv zt lamb i,
   fun i => raissModel_zero_var sig_t_inv zt lamb hl i⟩

/-- Witness for C3 (amended) at a one-by-one instance with `lamb = 1/100`. -/
theorem raiss_zero_ld_mu_zero_var_one_witness :
    (0 : ℝ) < 1 / 100 ∧
    (raissModel (0 : Matrix (Fin 1) (Fin 1) ℝ) 1 (fun _ => 1) (1 / 100)).mu 0 = 0 ∧
    (raissModel (0 : Matrix (Fin 1) (Fin 1) ℝ) 1 (fun _ => 1) (1 / 100)).var 0 = 1 := by
  have h := raiss_zero_ld_mu_zero_var_one 1 1 (1 : Matrix (Fin 1) (Fin 1) ℝ)
    (fun _ => 1) (1 / 100) (by norm_num)
  exact ⟨by norm_num, h.1 0, h.2 0⟩

/-- Claim C3 counterexample: at the concrete zero-LD one-variant input with
`lamb = 1/100`, the returned `var` entry is 1 and differs from the claimed
`1 + lamb = 101/100`. -/
theorem raiss_zero_ld_var_counterexample :
    (raissModel (0 : Matrix (Fin 1) (Fin 1) ℝ) 1 (fun _ => 1) (1 / 100)).var 0
      ≠ 1 + 1 / 100 := by
  rw [raissModel_zero_var 1 (fun _ => 1) (1 / 100) (by norm_num) 0]
  norm_num

/-- Claim C7 (amended): `raiss_model` does NOT leave `sig_t` unchanged:
`_invert_sig_t` runs `np.fill_diagonal(sig_t, 1 + lamb)` on the caller's
array, so after the call every diagonal entry equals `1 + lamb` while every
off-diagonal entry keeps its original value. -/
theorem raiss_sig_t_mutated (k : ℕ) (sig_t : Matrix (Fin k) (Fin k) ℝ)
    (lamb : ℝ) :
    (∀ i j, i ≠ j → raissSigTAfter sig_t lamb i j = sig_t i j) ∧
    (∀ i, raissSigTAfter sig_t lamb i i = 1 + lamb) := by
  constructor
  · intro i j hij
    simp [raissSigTAfter, fillDiagonal, hij]
  · intro i
    simp [raissSigTAfter, fillDiagonal]

/-- Witness for C7 (amended) on a concrete 2×2 matrix. -/
theorem raiss_sig_t_mutated_witness :
    ((0 : Fin 2) ≠ 1) ∧
    raissSigTAfter ((fun _ _ => (1 / 2 : ℝ)) : Matrix (Fin 2) (Fin 2) ℝ)
      (1 / 100) 0 1 = 1 / 2 ∧
    raissSigTAfter ((fun _ _ => (1 / 2 : ℝ)) : Matrix (Fin 2) (Fin 2) ℝ)
      (1 / 100) 0 0 = 1 + 1 / 100 := by
  have h := raiss_sig_t_mutated 2 ((fun _ _ => (1 / 2 : ℝ)) : Matrix (Fin 2) (Fin 2) ℝ)
    (1 / 100)
  exact ⟨by decide, h.1 0 1 (by decide), h.2 0⟩

/-- Claim C7 counterexample: after `raiss_model` with `lamb = 1/100` the
`[0,0]` entry of the concrete unit-diagonal `sig_t` is `101/100`, not its
original value 1. -/
theorem raiss_sig_t_unchanged_counterexample :
    raissSigTAfter sigTexample (1 / 100) 0 0 ≠ sigTexample 0 0 := by
  simp only [raissSigTAfter, fillDiagonal, sigTexample, if_pos rfl]
  norm_num

lemma dedupFirst_go {α : Type} [DecidableEq α] (l : List α) :
    ∀ acc : List α, l.Nodup → (∀ x ∈ l, x ∉ acc) →
      l.foldl (fun acc x => if x ∈ acc then acc else acc ++ [x]) acc = acc ++ l := by
  induction l with
  | nil =>
    intro acc _ _
    simp
  | cons a t ih =>
    intro acc hnd hdisj
    obtain ⟨ha, ht⟩ := List.nodup_cons.mp hnd
    rw [List.foldl_cons, if_neg (hdisj a (by simp))]
    rw [ih (acc ++ [a]) ht ?_]
    · simp
    · intro x hx
      simp only [List.mem_append, List.mem_singleton]
      rintro (hxa | rfl)
      · exact hdisj x (List.mem_cons_of_mem a hx) hxa
      · exact ha hx

lemma dedupFirst_eq_self {α : Type} [DecidableEq α] (l : List α) (h : l.Nodup) :
    dedupFirst l = l := by
  unfold dedupFirst
  simpa using dedupFirst_go l [] h (by simp)

lemma ratTrunc_natCast_div (S n : ℕ) :
    ratTrunc ((S : ℚ) / (n : ℚ)) = ((S / n : ℕ) : ℤ) := by
  rcases Nat.eq_zero_or_pos n with h0 | hpos
  · subst h0
    simp [ratTrunc]
  · have hq : (0 : ℚ) < (n : ℚ) := by exact_mod_cast hpos
    have hge : 0 ≤ (S : ℚ) / (n : ℚ) := by positivity
    unfold ratTrunc
    rw [if_pos hge, Int.floor_eq_iff]
    constructor
    · rw [le_div_iff₀ hq]
      exact_mod_cast Nat.div_mul_le_self S n
    · rw [div_lt_iff₀ hq]
      have hlt : S < (S / n + 1) * n := by
        have hdm := Nat.div_add_mod S n
        have hmod := Nat.mod_lt S hpos
        calc S = n * (S / n) + S % n := hdm.symm
          _ < n * (S / n) + n := by omega
          _ = (S / n + 1) * n := by ring
      exact_mod_cast hlt

lemma nodup_map_pair {α β : Type} [DecidableEq α] (l : List α) (c : β)
    (h : l.Nodup) : (l.map fun a => (a, c)).Nodup :=
  h.map fun _ _ hab => congrArg Prod.fst hab

lemma foldl_normalizeStep_head (es : List (List Char × ℤ)) :
    ∀ (key : List Char) (v : ℤ) (rest : List (List Char × ℤ)),
      (∀ e ∈ es, e.1 ≠ key) →
      es.foldl normalizeStep ((key, v) :: rest)
        = (key, v) :: es.foldl normalizeStep rest := by
  induction es with
  | nil =>
    intro key v rest _
    rfl
  | cons e t ih =>
    intro key v rest hks
    have he : e.1 ≠ key := hks e (by simp)
    rw [List.foldl_cons, List.foldl_cons]
    have hstep : normalizeStep ((key, v) :: rest) e
        = (key, v) :: normalizeStep rest e := by
      unfold normalizeStep
      simp only [List.map_cons]
      rw [if_neg fun hc => he hc.symm]
    rw [hstep]
    exact ih key v (normalizeStep rest e) fun x hx => hks x (by simp [hx])

lemma foldl_normalizeStep_diag (keys : List (List Char)) (c : ℤ)
    (h : keys.Nodup) :
    (keys.map fun a => (a, c)).foldl normalizeStep (keys.map fun a => (a, (0 : ℤ)))
      = keys.map fun a => (a, c) := by
  induction keys with
  | nil => rfl
  | cons kk t ih =>
    obtain ⟨hk, ht⟩ := List.nodup_cons.mp h
    rw [List.map_cons, List.map_cons, List.foldl_cons]
    have hstep : normalizeStep ((kk, (0 : ℤ)) :: t.map fun a => (a, (0 : ℤ))) (kk, c)
        = (kk, c) :: t.map fun a => (a, (0 : ℤ)) := by
      unfold normalizeStep
      simp only [List.map_cons, List.map_map, if_true, zero_add]
      refine congrArg₂ _ rfl ?_
      apply List.map_congr_left
      intro a hat
      have hne : a ≠ kk := fun hc => hk (hc ▸ hat)
      simp [Function.comp, hne]
    rw [hstep]
    rw [foldl_normalizeStep_head (t.map fun a => (a, c)) kk c
      (t.map fun a => (a, (0 : ℤ)))
      (by
        rintro e he
        obtain ⟨a, hat, rfl⟩ := List.mem_map.mp he
        exact fun hc => hk (hc ▸ hat))]
    rw [ih ht]

/-- Claim C9: a multi-ancestry record whose string splits into n (distinct)
ancestries, with total sample count S, is parsed into n entries each
receiving `S / n` by integer division. -/
theorem parse_discovery_samples_even_split (anc : List Char) (S : ℕ)
    (hnd : (splitAncestries anc).Nodup) :
    parseDiscoverySamples [⟨anc, (S : ℤ)⟩]
      = (splitAncestries anc).map
          fun a => (a, ((S / (splitAncestries anc).length : ℕ) : ℤ)) := by
  have hresolved : resolvedSampleCount [⟨anc, (S : ℤ)⟩]
      = [((S / (splitAncestries anc).length : ℕ) : ℤ)] := by
    unfold resolvedSampleCount
    simp only [List.map_cons, List.map_nil]
    rw [show (((⟨anc, (S : ℤ)⟩ : AncestrySample).sampleSize : ℚ))
        = ((S : ℕ) : ℚ) from by push_cast; rfl]
    rw [ratTrunc_natCast_div]
  have hunique : uniqueAncestries [⟨anc, (S : ℤ)⟩]
      = (splitAncestries anc).map fun a => (a, (0 : ℤ)) := by
    unfold uniqueAncestries
    simp only [List.map_cons, List.map_nil, List.foldl_cons, List.foldl_nil,
      List.nil_append]
    rw [dedupFirst_eq_self _ hnd, dedupFirst_eq_self _ hnd]
  have hparsed : parsedSampleSize [⟨anc, (S : ℤ)⟩]
      = (splitAncestries anc).map
          fun a => (a, ((S / (splitAncestries anc).length : ℕ) : ℤ)) := by
    unfold parsedSampleSize
    rw [hresolved]
    simp only [List.map_cons, List.map_nil, List.zip_cons_cons, List.zip_nil_right,
      List.foldl_cons, List.foldl_nil, List.nil_append]
    exact dedupFirst_eq_self _ (nodup_map_pair _ _ hnd)
  unfold parseDiscoverySamples
  rw [hparsed, hunique]
  exact foldl_normalizeStep_diag (splitAncestries anc) _ hnd

/-- Witness for C9 at the spec's example: `"European, African, Asian"` with
100 samples yields 33 per ancestry. -/
theorem parse_discovery_samples_even_split_witness :
    (splitAncestries "European, African, Asian".toList).Nodup ∧
    parseDiscoverySamples [⟨"European, African, Asian".toList, ((100 : ℕ) : ℤ)⟩]
      = [("European".toList, 33), ("African".toList, 33), ("Asian".toList, 33)] := by
  refine ⟨by decide, ?_⟩
  rw [parse_discovery_samples_even_split "European, African, Asian".toList 100
    (by decide)]
  decide

end GeneticsColoc
